import Mathlib

/-!
Verification of the Wordle candidate-filtering and recommendation engine
from `src/tools/wordle_solver.py` (class `WordleSolver`).

Modelling choices:
* Python strings are `List Char`; the pool is a `List Word`.
* `collections.Counter` is a total map `Char → Int` (a missing key reads
  as `0`, and `counter[k] -= 1` may drive a value negative, so values
  are integers, not naturals).
* String indexing `word[i]` is fallible (`List.get?`); an out-of-range
  access is an `IndexError`, modelled by the `Except` error channel.
  `zip(guess, pattern)` truncates to the shorter input, as in Python.
* The length/alphabet validation performed by `main_loop` before it calls
  `filter_words` is modelled by `filterOp`; a rejected input leaves the
  pool unchanged (`applyFilter`).
* Python's `sorted(pool, key=score, reverse=True)` is stable and, with
  `reverse=True`, keeps tied elements in their original order; its
  observable behaviour is exactly insertion sort with the reflexive
  descending comparison `score b ≤ score a`, which is how it is embedded.
-/

namespace WSolver

abbrev Word := List Char

/-- Occurrence counts of `collections.Counter(word)`, as a total
integer-valued map. -/
def initCounts (w : Word) : Char → Int :=
  fun c => ((w.filter (fun x => decide (x = c))).length : Int)

/-- Pointwise decrement, the effect of `word_counts[c] -= 1`. -/
def decr (counts : Char → Int) (c : Char) : Char → Int :=
  fun x => if x = c then counts x - 1 else counts x

/-- Failure modes of one spec-level `filter` call: input rejected by the
pre-validation, or a Python `IndexError` escaping `filter_words`. -/
inductive FilterError where
  | invalidInput
  | indexError
deriving DecidableEq

/-- Pass 1 of `filter_words`' per-candidate loop: iterate
`enumerate(zip(guess, pattern))`; at each position marked `G` require
`word[i] == g_char` (eliminating the word otherwise) and decrement the
remaining count of `g_char`.  Returns `none` for an eliminated word and
otherwise the remaining counts handed to pass 2. -/
def pass1 (word : Word) : List (Nat × Char × Char) → (Char → Int) →
    Except FilterError (Option (Char → Int))
  | [], counts => .ok (some counts)
  | (i, gc, pc) :: rest, counts =>
    if pc = 'G' then
      match word.get? i with
      | none => .error .indexError
      | some wc =>
        if wc ≠ gc then .ok none
        else pass1 word rest (decr counts gc)
    else pass1 word rest counts

/-- Pass 2 of `filter_words`' per-candidate loop: skip `G` positions; at a
`Y` position eliminate the word when `word[i] == g_char` or the remaining
count of `g_char` is zero and otherwise decrement it; at an `X` position
eliminate the word when the remaining count of `g_char` is positive.  Any
other pattern character imposes no constraint. -/
def pass2 (word : Word) : List (Nat × Char × Char) → (Char → Int) →
    Except FilterError Bool
  | [], _ => .ok true
  | (i, gc, pc) :: rest, counts =>
    if pc = 'G' then pass2 word rest counts
    else if pc = 'Y' then
      match word.get? i with
      | none => .error .indexError
      | some wc =>
        if wc = gc ∨ counts gc = 0 then .ok false
        else pass2 word rest (decr counts gc)
    else if pc = 'X' then
      if 0 < counts gc then .ok false
      else pass2 word rest counts
    else pass2 word rest counts

/-- The per-candidate consistency check of `filter_words`: pass 1 over the
greens, then (only if the word survived) pass 2 over the rest. -/
def checkWord (guess pattern : List Char) (word : Word) :
    Except FilterError Bool :=
  match pass1 word (guess.zip pattern).enum (initCounts word) with
  | .error e => .error e
  | .ok none => .ok false
  | .ok (some counts) => pass2 word (guess.zip pattern).enum counts

/-- Body of `filter_words`: keep, in order, the candidates that pass
`checkWord`; a raised `IndexError` aborts the whole call. -/
def filterWords (guess pattern : List Char) : List Word →
    Except FilterError (List Word)
  | [] => .ok []
  | w :: ws =>
    match checkWord guess pattern w with
    | .error e => .error e
    | .ok b =>
      match filterWords guess pattern ws with
      | .error e => .error e
      | .ok rest => .ok (if b then w :: rest else rest)

/-- One spec-level `filter` call: the validation `main_loop` performs
before calling `filter_words` (guess length, pattern length, pattern
alphabet, in that order), then `filter_words` itself. -/
def filterOp (guess pattern : List Char) (pool : List Word) :
    Except FilterError (List Word) :=
  if guess.length ≠ 5 then .error .invalidInput
  else if pattern.length ≠ 5 then .error .invalidInput
  else if pattern.any (fun c => decide (c ≠ 'G' ∧ c ≠ 'Y' ∧ c ≠ 'X')) then
    .error .invalidInput
  else filterWords guess pattern pool

/-- The pool after a `filter` call: a rejected or aborted call leaves the
pool exactly as it was (`main_loop` validates before mutating, and
`filter_words` only assigns `self.possible_words` after its loop ends). -/
def applyFilter (pool : List Word) (guess pattern : List Char) : List Word :=
  match filterOp guess pattern pool with
  | .error _ => pool
  | .ok r => r

/-- Global letter frequency of `calculate_scores`: `letter_counts[c]` is
the number of pool words containing `c` at least once (each word updates
the counter with `set(word)`, hence contributes at most 1 per letter). -/
def letterFreq (pool : List Word) (c : Char) : Nat :=
  (pool.filter (fun w => decide (c ∈ w))).length

/-- Score of one word in `calculate_scores`: the sum of the global
frequencies of its distinct letters (`for c in set(word)`). -/
def wordScore (pool : List Word) (w : Word) : Nat :=
  (w.dedup.map (letterFreq pool)).sum

/-- Comparison used to embed `sorted(key=score, reverse=True)`: word `a`
may precede word `b` when its score is at least as large. -/
def scoreGE (score : Word → Nat) (a b : Word) : Prop :=
  score b ≤ score a

instance (score : Word → Nat) : DecidableRel (scoreGE score) :=
  fun a b => inferInstanceAs (Decidable (score b ≤ score a))

/-- The `ranked` list of `recommend`: the pool stably sorted by
descending score. -/
def rankedList (pool : List Word) : List Word :=
  List.insertionSort (scoreGE (wordScore pool)) pool

/-- Spec-level `recommend(pool, topK)`: the source's `recommend` is the
instance `topK = 10` of this (`return ranked[:10]`). -/
def recommendList (pool : List Word) (topK : Nat) : List Word :=
  (rankedList pool).take topK

/-- Strict-on-ties key order used to state the tie-break of claim C5:
position-tagged word `a` precedes `b` when its score is strictly larger,
or the scores tie and `a`'s original pool index is not larger. -/
def specKey (score : Word → Nat) (a b : Nat × Word) : Prop :=
  score b.2 < score a.2 ∨ (score a.2 = score b.2 ∧ a.1 ≤ b.1)

instance (score : Word → Nat) : DecidableRel (specKey score) := by
  intro a b
  unfold specKey
  infer_instance

/-- Ranking described by the spec for C5: tag each pool word with its
original index, sort by descending score breaking ties by that index,
and forget the tags. -/
def specRanked (pool : List Word) : List Word :=
  (List.insertionSort (specKey (wordScore pool)) pool.enum).map Prod.snd

/-- Session state of a `WordleSolver` instance: the loaded word list
`self.words` and the current pool `self.possible_words`. -/
structure SolverState where
  words : List Word
  possible_words : List Word
deriving DecidableEq

/-- Seeding of the store (spec operation `initialize`): after
`load_words`, `self.possible_words = self.words[:]`. -/
def initState (wordList : List Word) : SolverState :=
  { words := wordList, possible_words := wordList }

/-- Spec operation `size()` (`len(self.possible_words)`) as a state
transformer: the source reads the pool and assigns nothing. -/
def sizeRun (s : SolverState) : SolverState × Nat :=
  (s, s.possible_words.length)

/-- Method `recommend` as a state transformer: it builds a fresh score
dict and a fresh sorted list and assigns to neither field. -/
def recommendRun (s : SolverState) : SolverState × List Word :=
  (s, recommendList s.possible_words 10)

/-- Accepted `filter` call as a state transformer: only
`self.possible_words` is reassigned. -/
def filterRun (s : SolverState) (guess pattern : List Char) : SolverState :=
  { s with possible_words := applyFilter s.possible_words guess pattern }

/-- Operations a caller can issue against one solver session. -/
inductive SolverOp where
  | filterCall (guess pattern : List Char)
  | recommendCall
  | sizeCall

/-- One step of the session. -/
def stepOp (s : SolverState) : SolverOp → SolverState
  | .filterCall g p => filterRun s g p
  | .recommendCall => (recommendRun s).1
  | .sizeCall => (sizeRun s).1

/-- A whole session: a sequence of operations run from a state. -/
def runOps (s : SolverState) (ops : List SolverOp) : SolverState :=
  ops.foldl stepOp s

/-- Position-wise zip of a candidate word with guess/pattern pairs,
truncating at the shortest list. -/
def zip3CW : Word → List (Char × Char) → List (Char × Char × Char)
  | wc :: ws, q :: rest => (wc, q.1, q.2) :: zip3CW ws rest
  | _, _ => []

/-- Pass 1 of the spec's two-pass rule, as a total function over the
triples `(word letter, guess letter, pattern symbol)`. -/
def pass1P : (Char → Int) → List (Char × Char × Char) → Option (Char → Int)
  | counts, [] => some counts
  | counts, (wc, gc, pc) :: rest =>
    if pc = 'G' then
      if wc ≠ gc then none else pass1P (decr counts gc) rest
    else pass1P counts rest

/-- Pass 2 of the spec's two-pass rule, as a total function over the
same triples. -/
def pass2P : (Char → Int) → List (Char × Char × Char) → Bool
  | _, [] => true
  | counts, (wc, gc, pc) :: rest =>
    if pc = 'G' then pass2P counts rest
    else if pc = 'Y' then
      if wc = gc ∨ counts gc = 0 then false
      else pass2P (decr counts gc) rest
    else if pc = 'X' then
      if 0 < counts gc then false
      else pass2P counts rest
    else pass2P counts rest

/-- Consistency of one candidate with a guess/pattern pair, exactly as
claim C1 words the two-pass rule: a remaining-count map seeded from the
candidate's letter multiset, pass 1 over the greens (a mismatch
eliminates the word before pass 2 runs), then pass 2 left to right over
the remaining positions. -/
def specConsistent (guess pattern : List Char) (w : Word) : Bool :=
  match pass1P (initCounts w) (zip3CW w (guess.zip pattern)) with
  | none => false
  | some counts => pass2P counts (zip3CW w (guess.zip pattern))

/-- Yellow/gray assignment of standard Wordle scoring over the pairs
`(secret letter, guess letter)`: greens where the letters agree, then
left to right a yellow while an unaccounted occurrence of the guess
letter remains, gray otherwise. -/
def assignYX (counts : Char → Int) : List (Char × Char) → List Char
  | [] => []
  | q :: rest =>
    if q.1 = q.2 then 'G' :: assignYX counts rest
    else if 0 < counts q.2 then 'Y' :: assignYX (decr counts q.2) rest
    else 'X' :: assignYX counts rest

/-- Occurrences of a letter in the secret at non-green positions: the
budget available for yellows in standard Wordle scoring. -/
def nonGreenCount (pairs : List (Char × Char)) (c : Char) : Int :=
  ((pairs.filter (fun q => decide (q.1 = c ∧ q.1 ≠ q.2))).length : Int)

/-- Standard Wordle feedback of a guess against a secret (claim C2):
greens at exact matches, then yellows assigned left to right from the
remaining unmatched occurrences of each letter, gray otherwise. -/
def feedback (guess secret : List Char) : List Char :=
  assignYX (nonGreenCount (secret.zip guess)) (secret.zip guess)

theorem filterOp_ok {g p : List Char} {pool r : List Word}
    (h : filterOp g p pool = .ok r) : filterWords g p pool = .ok r := by
  unfold filterOp at h
  split at h
  · exact absurd h (by simp)
  · split at h
    · exact absurd h (by simp)
    · split at h
      · exact absurd h (by simp)
      · exact h

theorem filterWords_ok_sublist {g p : List Char} : ∀ {pool r : List Word},
    filterWords g p pool = .ok r → r.Sublist pool := by
  intro pool
  induction pool with
  | nil =>
    intro r h
    unfold filterWords at h
    simp only [Except.ok.injEq] at h
    simp [← h]
  | cons w ws ih =>
    intro r h
    unfold filterWords at h
    cases hc : checkWord g p w with
    | error e => rw [hc] at h; exact absurd h (by simp)
    | ok b =>
      rw [hc] at h
      cases hf : filterWords g p ws with
      | error e => rw [hf] at h; exact absurd h (by simp)
      | ok rest =>
        rw [hf] at h
        simp only [Except.ok.injEq] at h
        subst h
        cases b with
        | true => simpa using (ih hf).cons₂ w
        | false => simpa using (ih hf).cons w

theorem applyFilter_sublist (pool : List Word) (g p : List Char) :
    (applyFilter pool g p).Sublist pool := by
  unfold applyFilter
  cases h : filterOp g p pool with
  | error e => exact List.Sublist.refl pool
  | ok r => exact filterWords_ok_sublist (filterOp_ok h)

theorem stepOp_possible_sublist (s : SolverState) (op : SolverOp) :
    (stepOp s op).possible_words.Sublist s.possible_words := by
  cases op with
  | filterCall g p => exact applyFilter_sublist _ _ _
  | recommendCall => exact List.Sublist.refl _
  | sizeCall => exact List.Sublist.refl _

theorem runOps_possible_sublist (ops : List SolverOp) : ∀ s : SolverState,
    (runOps s ops).possible_words.Sublist s.possible_words := by
  induction ops with
  | nil => intro s; exact List.Sublist.refl _
  | cons op rest ih =>
    intro s
    exact (ih (stepOp s op)).trans (stepOp_possible_sublist s op)

theorem stepOp_words (s : SolverState) (op : SolverOp) :
    (stepOp s op).words = s.words := by
  cases op <;> rfl

theorem runOps_words (ops : List SolverOp) : ∀ s : SolverState,
    (runOps s ops).words = s.words := by
  induction ops with
  | nil => intro s; rfl
  | cons op rest ih =>
    intro s
    rw [show runOps s (op :: rest) = runOps (stepOp s op) rest from rfl,
      ih (stepOp s op), stepOp_words]

/-- C3: a guess or pattern of length other than 5, or a pattern symbol
outside `{G, Y, X}`, makes the `filter` call fail with
`InvalidInputError`, and the candidate pool is left completely
unchanged: all validation happens before any mutation. -/
theorem c3_invalid_input_rejected_before_mutation
    (g p : List Char) (pool : List Word)
    (h : g.length ≠ 5 ∨ p.length ≠ 5 ∨
      ∃ c ∈ p, c ≠ 'G' ∧ c ≠ 'Y' ∧ c ≠ 'X') :
    filterOp g p pool = .error .invalidInput ∧ applyFilter pool g p = pool := by
  have he : filterOp g p pool = .error .invalidInput := by
    unfold filterOp
    by_cases hg : g.length ≠ 5
    · rw [if_pos hg]
    · rw [if_neg hg]
      by_cases hp : p.length ≠ 5
      · rw [if_pos hp]
      · rw [if_neg hp]
        rcases h with h | h | h
        · exact absurd h hg
        · exact absurd h hp
        · rw [if_pos ?_]
          obtain ⟨c, hc, h1, h2, h3⟩ := h
          exact List.any_eq_true.mpr ⟨c, hc, by simp [h1, h2, h3]⟩
  refine ⟨he, ?_⟩
  unfold applyFilter
  rw [he]

theorem c3_invalid_input_rejected_before_mutation_witness :
    (('Z' : Char) ≠ 'G' ∨ (5 : Nat) ≠ 5 ∨
      ∃ c ∈ ['G', 'Y', 'X', 'Z', 'G'], c ≠ 'G' ∧ c ≠ 'Y' ∧ c ≠ 'X') ∧
    filterOp ['c', 'r', 'a', 'n', 'e'] ['G', 'Y', 'X', 'Z', 'G']
        [['s', 'l', 'a', 't', 'e']] = .error .invalidInput ∧
    applyFilter [['s', 'l', 'a', 't', 'e']] ['c', 'r', 'a', 'n', 'e']
        ['G', 'Y', 'X', 'Z', 'G'] = [['s', 'l', 'a', 't', 'e']] :=
  ⟨by decide,
    c3_invalid_input_rejected_before_mutation
      ['c', 'r', 'a', 'n', 'e'] ['G', 'Y', 'X', 'Z', 'G']
      [['s', 'l', 'a', 't', 'e']]
      (Or.inr (Or.inr (by decide)))⟩

/-- C4: every state reachable from `initialize(wordList)` by a sequence
of valid filter calls has a candidate pool that is an order-preserving
subsequence of the original word list; each individual filter call
shrinks the pool to a subsequence of the pre-call pool, so its size
never grows. -/
theorem c4_pool_subsequence_invariant (wordList : List Word)
    (calls : List (List Char × List Char))
    (hvalid : ∀ q ∈ calls, (q.1).length = 5 ∧ (q.2).length = 5 ∧
      ∀ c ∈ q.2, c = 'G' ∨ c = 'Y' ∨ c = 'X') :
    (runOps (initState wordList)
      (calls.map (fun q => SolverOp.filterCall q.1 q.2))).possible_words.Sublist
        wordList ∧
    ∀ (pool : List Word) (g p : List Char),
      (applyFilter pool g p).Sublist pool ∧
      (applyFilter pool g p).length ≤ pool.length := by
  refine ⟨runOps_possible_sublist _ _, fun pool g p => ?_⟩
  exact ⟨applyFilter_sublist pool g p,
    (applyFilter_sublist pool g p).length_le⟩

theorem c4_pool_subsequence_invariant_witness :
    (∀ q ∈ [(['c', 'r', 'a', 'n', 'e'], ['X', 'X', 'G', 'X', 'G'])],
      (q.1 : List Char).length = 5 ∧ (q.2 : List Char).length = 5 ∧
      ∀ c ∈ q.2, c = 'G' ∨ c = 'Y' ∨ c = 'X') ∧
    ((runOps (initState [['s', 'l', 'a', 't', 'e'], ['c', 'r', 'a', 'n', 'e']])
      ([(['c', 'r', 'a', 'n', 'e'], ['X', 'X', 'G', 'X', 'G'])].map
        (fun q => SolverOp.filterCall q.1 q.2))).possible_words.Sublist
          [['s', 'l', 'a', 't', 'e'], ['c', 'r', 'a', 'n', 'e']] ∧
    ∀ (pool : List Word) (g p : List Char),
      (applyFilter pool g p).Sublist pool ∧
      (applyFilter pool g p).length ≤ pool.length) :=
  ⟨by decide,
    c4_pool_subsequence_invariant
      [['s', 'l', 'a', 't', 'e'], ['c', 'r', 'a', 'n', 'e']]
      [(['c', 'r', 'a', 'n', 'e'], ['X', 'X', 'G', 'X', 'G'])] (by decide)⟩

/-- C6: `recommend(pool, topK)` returns exactly `min(topK, |pool|)`
entries; on an empty pool it returns the empty sequence without an
error, and `filter` on an empty pool returns an empty pool. -/
theorem c6_recommend_length_and_empty_pool
    (pool : List Word) (topK : Nat) (g p : List Char) :
    (recommendList pool topK).length = min topK pool.length ∧
    recommendList [] topK = [] ∧
    filterWords g p [] = .ok [] := by
  refine ⟨?_, by simp [recommendList, rankedList, List.insertionSort], rfl⟩
  unfold recommendList rankedList
  rw [List.length_take, List.length_insertionSort]

theorem pass1_bridge (w : Word) : ∀ (l : List (Char × Char)) (n : Nat)
    (counts : Char → Int), n + l.length ≤ w.length →
    pass1 w (l.enumFrom n) counts = .ok (pass1P counts (zip3CW (w.drop n) l)) := by
  intro l
  induction l with
  | nil => intro n counts _; simp [pass1, pass1P, zip3CW]
  | cons q rest ih =>
    intro n counts h
    obtain ⟨gc, pc⟩ := q
    have hn : n < w.length := by simp only [List.length_cons] at h; omega
    have hget : w.get? n = some w[n] := by
      rw [List.get?_eq_getElem?, List.getElem?_eq_getElem hn]
    have hrec : (n + 1) + rest.length ≤ w.length := by
      simp only [List.length_cons] at h; omega
    rw [List.drop_eq_getElem_cons hn]
    show pass1 w ((n, gc, pc) :: rest.enumFrom (n + 1)) counts =
      .ok (pass1P counts ((w[n], gc, pc) :: zip3CW (w.drop (n + 1)) rest))
    by_cases hpc : pc = 'G'
    · subst hpc
      rw [show pass1 w ((n, gc, 'G') :: rest.enumFrom (n + 1)) counts =
          (match w.get? n with
            | none => .error .indexError
            | some wc =>
              if wc ≠ gc then .ok none
              else pass1 w (rest.enumFrom (n + 1)) (decr counts gc)) from
        by simp [pass1], hget]
      by_cases hwg : w[n] = gc
      · simp only [hwg, ne_eq, not_true_eq_false, if_false, ite_false]
        rw [ih (n + 1) (decr counts gc) hrec]
        simp [pass1P, hwg]
      · simp [pass1P, hwg]
    · rw [show pass1 w ((n, gc, pc) :: rest.enumFrom (n + 1)) counts =
          pass1 w (rest.enumFrom (n + 1)) counts from by simp [pass1, hpc]]
      rw [ih (n + 1) counts hrec]
      simp [pass1P, hpc]

theorem pass2_bridge (w : Word) : ∀ (l : List (Char × Char)) (n : Nat)
    (counts : Char → Int), n + l.length ≤ w.length →
    pass2 w (l.enumFrom n) counts = .ok (pass2P counts (zip3CW (w.drop n) l)) := by
  intro l
  induction l with
  | nil => intro n counts _; simp [pass2, pass2P, zip3CW]
  | cons q rest ih =>
    intro n counts h
    obtain ⟨gc, pc⟩ := q
    have hn : n < w.length := by simp only [List.length_cons] at h; omega
    have hget : w.get? n = some w[n] := by
      rw [List.get?_eq_getElem?, List.getElem?_eq_getElem hn]
    have hrec : (n + 1) + rest.length ≤ w.length := by
      simp only [List.length_cons] at h; omega
    rw [List.drop_eq_getElem_cons hn]
    show pass2 w ((n, gc, pc) :: rest.enumFrom (n + 1)) counts =
      .ok (pass2P counts ((w[n], gc, pc) :: zip3CW (w.drop (n + 1)) rest))
    by_cases hG : pc = 'G'
    · subst hG
      rw [show pass2 w ((n, gc, 'G') :: rest.enumFrom (n + 1)) counts =
          pass2 w (rest.enumFrom (n + 1)) counts from by simp [pass2]]
      rw [ih (n + 1) counts hrec]
      simp [pass2P]
    · by_cases hY : pc = 'Y'
      · subst hY
        rw [show pass2 w ((n, gc, 'Y') :: rest.enumFrom (n + 1)) counts =
            (match w.get? n with
              | none => .error .indexError
              | some wc =>
                if wc = gc ∨ counts gc = 0 then .ok false
                else pass2 w (rest.enumFrom (n + 1)) (decr counts gc)) from
          by simp [pass2], hget]
        show (if w[n] = gc ∨ counts gc = 0 then Except.ok false
            else pass2 w (rest.enumFrom (n + 1)) (decr counts gc)) = _
        by_cases hcond : w[n] = gc ∨ counts gc = 0
        · simp [pass2P, hcond]
        · rw [if_neg hcond, ih (n + 1) (decr counts gc) hrec]
          simp [pass2P, hcond]
      · by_cases hX : pc = 'X'
        · subst hX
          rw [show pass2 w ((n, gc, 'X') :: rest.enumFrom (n + 1)) counts =
              (if 0 < counts gc then .ok false
                else pass2 w (rest.enumFrom (n + 1)) counts) from by simp [pass2]]
          by_cases hcond : 0 < counts gc
          · simp [pass2P, hcond]
          · rw [if_neg hcond, ih (n + 1) counts hrec]
            simp [pass2P, hcond]
        · rw [show pass2 w ((n, gc, pc) :: rest.enumFrom (n + 1)) counts =
              pass2 w (rest.enumFrom (n + 1)) counts from
            by simp [pass2, hG, hY, hX]]
          rw [ih (n + 1) counts hrec]
          simp [pass2P, hG, hY, hX]

theorem checkWord_bridge {g p : List Char} {w : Word}
    (h : (g.zip p).length ≤ w.length) :
    checkWord g p w = .ok (specConsistent g p w) := by
  unfold checkWord specConsistent
  have h1 := pass1_bridge w (g.zip p) 0 (initCounts w) (by simpa using h)
  have h2 := fun counts => pass2_bridge w (g.zip p) 0 counts (by simpa using h)
  rw [List.drop_zero] at h1 h2
  rw [show (g.zip p).enum = (g.zip p).enumFrom 0 from rfl, h1]
  cases hp1 : pass1P (initCounts w) (zip3CW w (g.zip p)) with
  | none => rfl
  | some counts => exact h2 counts

theorem filterWords_bridge {g p : List Char} : ∀ {pool : List Word},
    (∀ w ∈ pool, (g.zip p).length ≤ w.length) →
    filterWords g p pool = .ok (pool.filter (specConsistent g p)) := by
  intro pool
  induction pool with
  | nil => intro _; rfl
  | cons w ws ih =>
    intro h
    unfold filterWords
    rw [checkWord_bridge (h w (by simp)), ih (fun x hx => h x (by simp [hx])),
      List.filter_cons]

theorem filterOp_bridge {g p : List Char} {pool : List Word}
    (hg : g.length = 5) (hp : p.length = 5)
    (hpc : ∀ c ∈ p, c = 'G' ∨ c = 'Y' ∨ c = 'X')
    (hw : ∀ w ∈ pool, w.length = 5) :
    filterOp g p pool = .ok (pool.filter (specConsistent g p)) := by
  unfold filterOp
  rw [if_neg (by simp [hg]), if_neg (by simp [hp]), if_neg ?_]
  · exact filterWords_bridge (fun w hmem => by
      rw [List.length_zip, hg, hp, hw w hmem]; simp)
  · intro hbad
    rw [List.any_eq_true] at hbad
    obtain ⟨c, hc, hdec⟩ := hbad
    rw [decide_eq_true_eq] at hdec
    rcases hpc c hc with h | h | h
    · exact hdec.1 h
    · exact hdec.2.1 h
    · exact hdec.2.2 h

theorem filterOp_valid {g p : List Char} (pool : List Word)
    (hg : g.length = 5) (hp : p.length = 5)
    (hpc : ∀ c ∈ p, c = 'G' ∨ c = 'Y' ∨ c = 'X') :
    filterOp g p pool = filterWords g p pool := by
  unfold filterOp
  rw [if_neg (by simp [hg]), if_neg (by simp [hp]), if_neg ?_]
  intro hbad
  rw [List.any_eq_true] at hbad
  obtain ⟨c, hc, hdec⟩ := hbad
  rw [decide_eq_true_eq] at hdec
  rcases hpc c hc with h | h | h
  · exact hdec.1 h
  · exact hdec.2.1 h
  · exact hdec.2.2 h

/-- C1: for a length-5 guess and a length-5 pattern over `{G, Y, X}`,
`filter` replaces a pool of 5-letter words by exactly the words passing
the two-pass consistency check: remaining counts seeded from the word's
letter multiset; pass 1 requires the word to agree with the guess at
every green position (a mismatch eliminates it before pass 2 runs) and
decrements the matched letter's count; pass 2 runs left to right over
the non-green positions with the yellow and gray elimination rules. -/
theorem c1_filter_is_two_pass_check (g p : List Char) (pool : List Word)
    (hg : g.length = 5) (hp : p.length = 5)
    (hpc : ∀ c ∈ p, c = 'G' ∨ c = 'Y' ∨ c = 'X')
    (hw : ∀ w ∈ pool, w.length = 5) :
    filterOp g p pool = .ok (pool.filter (specConsistent g p)) :=
  filterOp_bridge hg hp hpc hw

theorem c1_filter_is_two_pass_check_witness :
    ((['c', 'r', 'a', 'n', 'e'] : List Char).length = 5 ∧
      (['X', 'X', 'G', 'X', 'G'] : List Char).length = 5 ∧
      (∀ c ∈ (['X', 'X', 'G', 'X', 'G'] : List Char),
        c = 'G' ∨ c = 'Y' ∨ c = 'X') ∧
      (∀ w ∈ [['s', 'l', 'a', 't', 'e'], ['c', 'r', 'a', 'n', 'e'],
          ['p', 'l', 'a', 't', 'e']], (w : Word).length = 5)) ∧
    filterOp ['c', 'r', 'a', 'n', 'e'] ['X', 'X', 'G', 'X', 'G']
        [['s', 'l', 'a', 't', 'e'], ['c', 'r', 'a', 'n', 'e'],
          ['p', 'l', 'a', 't', 'e']] =
      .ok ([['s', 'l', 'a', 't', 'e'], ['c', 'r', 'a', 'n', 'e'],
          ['p', 'l', 'a', 't', 'e']].filter
        (specConsistent ['c', 'r', 'a', 'n', 'e'] ['X', 'X', 'G', 'X', 'G'])) :=
  ⟨by decide,
    c1_filter_is_two_pass_check ['c', 'r', 'a', 'n', 'e']
      ['X', 'X', 'G', 'X', 'G']
      [['s', 'l', 'a', 't', 'e'], ['c', 'r', 'a', 'n', 'e'],
        ['p', 'l', 'a', 't', 'e']]
      (by decide) (by decide) (by decide) (by decide)⟩

theorem pass1P_skip {counts : Char → Int} : ∀ {ts : List (Char × Char × Char)},
    (∀ t ∈ ts, t.2.2 ≠ 'G') → pass1P counts ts = some counts := by
  intro ts
  induction ts with
  | nil => intro _; rfl
  | cons t rest ih =>
    intro h
    obtain ⟨wc, gc, pc⟩ := t
    show (if pc = 'G' then _ else pass1P counts rest) = some counts
    rw [if_neg (h (wc, gc, pc) (by simp))]
    exact ih (fun x hx => h x (by simp [hx]))

theorem pass2P_skip {counts : Char → Int} : ∀ {ts : List (Char × Char × Char)},
    (∀ t ∈ ts, t.2.2 ≠ 'G' ∧ t.2.2 ≠ 'Y' ∧ t.2.2 ≠ 'X') →
    pass2P counts ts = true := by
  intro ts
  induction ts with
  | nil => intro _; rfl
  | cons t rest ih =>
    intro h
    obtain ⟨wc, gc, pc⟩ := t
    have ht := h (wc, gc, pc) (by simp)
    show (if pc = 'G' then pass2P counts rest
      else if pc = 'Y' then _ else if pc = 'X' then _
      else pass2P counts rest) = true
    rw [if_neg ht.1, if_neg ht.2.1, if_neg ht.2.2]
    exact ih (fun x hx => h x (by simp [hx]))

theorem zip3CW_snd_mem : ∀ (w : Word) (l : List (Char × Char))
    (t : Char × Char × Char), t ∈ zip3CW w l → t.2 ∈ l := by
  intro w
  induction w with
  | nil => intro l t ht; cases l <;> exact absurd ht (by simp [zip3CW])
  | cons wc ws ih =>
    intro l t ht
    cases l with
    | nil => exact absurd ht (by simp [zip3CW])
    | cons q rest =>
      rw [show zip3CW (wc :: ws) (q :: rest) = (wc, q.1, q.2) :: zip3CW ws rest
        from rfl] at ht
      rcases List.mem_cons.mp ht with ht | ht
      · subst ht; simp
      · exact List.mem_cons_of_mem q (ih rest t ht)

theorem checkWord_nil_zip {g p : List Char} (h : g.zip p = []) (w : Word) :
    checkWord g p w = .ok true := by
  unfold checkWord
  rw [h]
  rfl

theorem filterWords_all_true {g p : List Char} : ∀ {pool : List Word},
    (∀ w ∈ pool, checkWord g p w = .ok true) →
    filterWords g p pool = .ok pool := by
  intro pool
  induction pool with
  | nil => intro _; rfl
  | cons w ws ih =>
    intro h
    unfold filterWords
    rw [h w (by simp), ih (fun x hx => h x (by simp [hx]))]
    rfl

/-- C10 counterexample: a six-character guess and pattern against the
pool `["slate"]` survive the first five green checks and then evaluate
`word[5]`, which raises an `IndexError`: `filter_words` does not
tolerate all input lengths. -/
theorem c10_counterexample_index_error :
    filterWords ['s', 'l', 'a', 't', 'e', 'e'] ['G', 'G', 'G', 'G', 'G', 'G']
      [['s', 'l', 'a', 't', 'e']] = .error .indexError := rfl

/-- C10 amended: when every pool word is at least as long as the zipped
guess/pattern (for example any inputs of length at most 5 against a
5-letter pool), `filter_words` raises no exception and produces the
two-pass-filtered pool, examining only positions below
min(len(guess), len(pattern)); a pattern character outside `{G, Y, X}`
imposes no constraint at its position, so a pattern made only of such
characters keeps every word; an empty guess or pattern leaves the pool
unchanged. -/
theorem c10_amended_no_exception_on_adequate_lengths (g p : List Char)
    (pool : List Word) (h : ∀ w ∈ pool, (g.zip p).length ≤ w.length) :
    filterWords g p pool = .ok (pool.filter (specConsistent g p)) ∧
    ((∀ c ∈ p, c ≠ 'G' ∧ c ≠ 'Y' ∧ c ≠ 'X') →
      filterWords g p pool = .ok pool) ∧
    filterWords g [] pool = .ok pool ∧
    filterWords [] p pool = .ok pool := by
  refine ⟨filterWords_bridge h, ?_, ?_, ?_⟩
  · intro hout
    rw [filterWords_bridge h]
    congr 1
    apply List.filter_eq_self.mpr
    intro w hw
    unfold specConsistent
    have hskip : ∀ t ∈ zip3CW w (g.zip p), t.2.2 ≠ 'G' ∧ t.2.2 ≠ 'Y' ∧
        t.2.2 ≠ 'X' := by
      intro t ht
      exact hout t.2.2 (List.of_mem_zip (zip3CW_snd_mem w (g.zip p) t ht)).2
    rw [pass1P_skip (fun t ht => (hskip t ht).1)]
    exact pass2P_skip hskip
  · exact filterWords_all_true
      (fun w _ => checkWord_nil_zip List.zip_nil_right w)
  · exact filterWords_all_true
      (fun w _ => checkWord_nil_zip List.zip_nil_left w)

theorem c10_amended_no_exception_on_adequate_lengths_witness :
    (∀ w ∈ [['s', 'l', 'a', 't', 'e']],
      ((['c', 'r'] : List Char).zip (['X', 'Y', 'X'] : List Char)).length ≤
        (w : Word).length) ∧
    (filterWords ['c', 'r'] ['X', 'Y', 'X'] [['s', 'l', 'a', 't', 'e']] =
      .ok ([['s', 'l', 'a', 't', 'e']].filter
        (specConsistent ['c', 'r'] ['X', 'Y', 'X'])) ∧
    ((∀ c ∈ (['X', 'Y', 'X'] : List Char),
        c ≠ 'G' ∧ c ≠ 'Y' ∧ c ≠ 'X') →
      filterWords ['c', 'r'] ['X', 'Y', 'X'] [['s', 'l', 'a', 't', 'e']] =
        .ok [['s', 'l', 'a', 't', 'e']]) ∧
    filterWords ['c', 'r'] [] [['s', 'l', 'a', 't', 'e']] =
      .ok [['s', 'l', 'a', 't', 'e']] ∧
    filterWords [] ['X', 'Y', 'X'] [['s', 'l', 'a', 't', 'e']] =
      .ok [['s', 'l', 'a', 't', 'e']]) :=
  ⟨by decide,
    c10_amended_no_exception_on_adequate_lengths ['c', 'r'] ['X', 'Y', 'X']
      [['s', 'l', 'a', 't', 'e']] (by decide)⟩

theorem filterWords_ok_mem {g p : List Char} : ∀ {pool r : List Word},
    filterWords g p pool = .ok r → ∀ w ∈ r, checkWord g p w = .ok true := by
  intro pool
  induction pool with
  | nil =>
    intro r h
    unfold filterWords at h
    simp only [Except.ok.injEq] at h
    subst h
    intro w hw
    exact absurd hw (by simp)
  | cons w ws ih =>
    intro r h
    unfold filterWords at h
    cases hc : checkWord g p w with
    | error e => rw [hc] at h; exact absurd h (by simp)
    | ok b =>
      rw [hc] at h
      cases hf : filterWords g p ws with
      | error e => rw [hf] at h; exact absurd h (by simp)
      | ok rest =>
        rw [hf] at h
        simp only [Except.ok.injEq] at h
        subst h
        cases b with
        | true =>
          intro x hx
          rcases List.mem_cons.mp (by simpa using hx) with hx' | hx'
          · subst hx'; exact hc
          · exact ih hf x hx'
        | false =>
          intro x hx
          exact ih hf x (by simpa using hx)

/-- C8: applying `filter` twice in a row with the same valid guess and
pattern yields the same pool as applying it once: every survivor of the
first application passes the same per-word check again, so the second
application causes no further shrinkage. -/
theorem c8_filter_idempotent (g p : List Char) (pool r : List Word)
    (hg : g.length = 5) (hp : p.length = 5)
    (hpc : ∀ c ∈ p, c = 'G' ∨ c = 'Y' ∨ c = 'X')
    (h : filterOp g p pool = .ok r) :
    filterOp g p r = .ok r := by
  rw [filterOp_valid r hg hp hpc]
  exact filterWords_all_true (filterWords_ok_mem (filterOp_ok h))

theorem c8_filter_idempotent_witness :
    ((['c', 'r', 'a', 'n', 'e'] : List Char).length = 5 ∧
      (['X', 'X', 'G', 'X', 'G'] : List Char).length = 5 ∧
      (∀ c ∈ (['X', 'X', 'G', 'X', 'G'] : List Char),
        c = 'G' ∨ c = 'Y' ∨ c = 'X') ∧
      filterOp ['c', 'r', 'a', 'n', 'e'] ['X', 'X', 'G', 'X', 'G']
        [['s', 'l', 'a', 't', 'e'], ['c', 'r', 'a', 'n', 'e']] =
          .ok [['s', 'l', 'a', 't', 'e']]) ∧
    filterOp ['c', 'r', 'a', 'n', 'e'] ['X', 'X', 'G', 'X', 'G']
      [['s', 'l', 'a', 't', 'e']] = .ok [['s', 'l', 'a', 't', 'e']] :=
  ⟨⟨by decide, by decide, by decide, rfl⟩,
    c8_filter_idempotent ['c', 'r', 'a', 'n', 'e'] ['X', 'X', 'G', 'X', 'G']
      [['s', 'l', 'a', 't', 'e'], ['c', 'r', 'a', 'n', 'e']]
      [['s', 'l', 'a', 't', 'e']] (by decide) (by decide) (by decide) rfl⟩

theorem pass1P_allG : ∀ (g w : List Char) (counts : Char → Int),
    w.length = g.length →
    (pass1P counts (zip3CW w (g.zip (List.replicate g.length 'G'))) ≠ none ↔
      w = g) := by
  intro g
  induction g with
  | nil =>
    intro w counts h
    have hw : w = [] := List.eq_nil_of_length_eq_zero h
    subst hw
    simp [pass1P, zip3CW]
  | cons gc g' ih =>
    intro w counts h
    cases w with
    | nil => exact absurd h (by simp)
    | cons wc w' =>
      simp only [List.length_cons] at h
      rw [List.length_cons, List.replicate_succ]
      show pass1P counts ((wc, gc, 'G') ::
        zip3CW w' (g'.zip (List.replicate g'.length 'G'))) ≠ none ↔
        wc :: w' = gc :: g'
      by_cases hwg : wc = gc
      · show (if 'G' = 'G' then
            if wc ≠ gc then none
            else pass1P (decr counts gc)
              (zip3CW w' (g'.zip (List.replicate g'.length 'G')))
          else _) ≠ none ↔ _
        rw [if_pos rfl, if_neg (by simp [hwg])]
        rw [ih w' (decr counts gc) (by omega)]
        simp [hwg]
      · show (if 'G' = 'G' then
            if wc ≠ gc then none
            else pass1P (decr counts gc)
              (zip3CW w' (g'.zip (List.replicate g'.length 'G')))
          else _) ≠ none ↔ _
        rw [if_pos rfl, if_pos (by simp [hwg])]
        simp [hwg]

theorem pass2P_allG : ∀ (g w : List Char) (counts : Char → Int),
    pass2P counts (zip3CW w (g.zip (List.replicate g.length 'G'))) = true := by
  intro g
  induction g with
  | nil => intro w counts; cases w <;> rfl
  | cons gc g' ih =>
    intro w counts
    cases w with
    | nil => rfl
    | cons wc w' =>
      rw [List.length_cons, List.replicate_succ]
      show pass2P counts ((wc, gc, 'G') ::
        zip3CW w' (g'.zip (List.replicate g'.length 'G'))) = true
      show (if 'G' = 'G' then
          pass2P counts (zip3CW w' (g'.zip (List.replicate g'.length 'G')))
        else _) = true
      rw [if_pos rfl]
      exact ih w' counts

theorem specConsistent_allG {g w : List Char} (h : w.length = g.length) :
    specConsistent g (List.replicate g.length 'G') w = decide (w = g) := by
  unfold specConsistent
  by_cases hwg : w = g
  · have h1 := (pass1P_allG g w (initCounts w) h).mpr hwg
    cases hp1 : pass1P (initCounts w)
        (zip3CW w (g.zip (List.replicate g.length 'G'))) with
    | none => exact absurd hp1 h1
    | some counts =>
      show pass2P counts (zip3CW w (g.zip (List.replicate g.length 'G'))) =
        decide (w = g)
      rw [pass2P_allG]
      simp [hwg]
  · have h1 : pass1P (initCounts w)
        (zip3CW w (g.zip (List.replicate g.length 'G'))) = none := by
      by_contra hne
      exact hwg ((pass1P_allG g w (initCounts w) h).mp hne)
    rw [h1]
    simp [hwg]

/-- C7: on a pool of 5-letter words containing the guess exactly once,
filtering with the all-green pattern `GGGGG` leaves exactly that one
candidate. -/
theorem c7_all_green_keeps_only_the_guess (g : List Char) (pool : List Word)
    (hw : ∀ w ∈ pool, w.length = 5) (hcount : pool.count g = 1) :
    filterOp g (List.replicate 5 'G') pool = .ok [g] := by
  have hgmem : g ∈ pool := List.count_pos_iff.mp (by omega)
  have hg : g.length = 5 := hw g hgmem
  rw [filterOp_valid pool hg (by simp)
    (fun c hc => Or.inl (List.eq_of_mem_replicate hc))]
  rw [filterWords_bridge (fun w hmem => by
    rw [List.length_zip, hg, List.length_replicate, hw w hmem]; simp)]
  congr 1
  have hcongr : pool.filter (specConsistent g (List.replicate 5 'G')) =
      pool.filter (· == g) := by
    apply List.filter_congr
    intro w hwmem
    have := specConsistent_allG (g := g) (w := w)
      (by rw [hw w hwmem, hg])
    rw [hg] at this
    rw [this]
    exact (Bool.beq_eq_decide_eq w g).symm
  rw [hcongr, List.filter_beq, hcount]
  rfl

theorem c7_all_green_keeps_only_the_guess_witness :
    ((∀ w ∈ [['s', 'l', 'a', 't', 'e'], ['c', 'r', 'a', 'n', 'e']],
      (w : Word).length = 5) ∧
      ([['s', 'l', 'a', 't', 'e'], ['c', 'r', 'a', 'n', 'e']] :
        List Word).count ['c', 'r', 'a', 'n', 'e'] = 1) ∧
    filterOp ['c', 'r', 'a', 'n', 'e'] (List.replicate 5 'G')
      [['s', 'l', 'a', 't', 'e'], ['c', 'r', 'a', 'n', 'e']] =
        .ok [['c', 'r', 'a', 'n', 'e']] :=
  ⟨by decide,
    c7_all_green_keeps_only_the_guess ['c', 'r', 'a', 'n', 'e']
      [['s', 'l', 'a', 't', 'e'], ['c', 'r', 'a', 'n', 'e']]
      (by decide) (by decide)⟩

/-- Pairs of letters zipped with the pattern symbols assigned to them. -/
def mkT : List (Char × Char) → List Char → List (Char × Char × Char)
  | q :: L, pc :: P => (q.1, q.2, pc) :: mkT L P
  | _, _ => []

/-- Green positions of a letter: occurrences of `c` in the secret that
coincide with the guess. -/
def greensCount (pairs : List (Char × Char)) (c : Char) : Int :=
  ((pairs.filter (fun q => decide (q.1 = c ∧ q.1 = q.2))).length : Int)

theorem zip3CW_zip_eq_mkT : ∀ (s g P : List Char),
    zip3CW s (g.zip P) = mkT (s.zip g) P := by
  intro s
  induction s with
  | nil => intro g P; cases g <;> cases P <;> rfl
  | cons sc s' ih =>
    intro g P
    cases g with
    | nil => cases P <;> rfl
    | cons gc g' =>
      cases P with
      | nil => rfl
      | cons pc P' =>
        show (sc, gc, pc) :: zip3CW s' (g'.zip P') =
          (sc, gc, pc) :: mkT (s'.zip g') P'
        rw [ih g' P']

theorem length_filter_and_split {α : Type} (l : List α) (p q : α → Prop)
    [DecidablePred p] [DecidablePred q] :
    (l.filter (fun a => decide (p a))).length =
      (l.filter (fun a => decide (p a ∧ q a))).length +
      (l.filter (fun a => decide (p a ∧ ¬ q a))).length := by
  induction l with
  | nil => rfl
  | cons a l ih =>
    by_cases hp : p a <;> by_cases hq : q a <;>
      simp [List.filter_cons, hp, hq, ih] <;> omega

theorem pass1P_feedback : ∀ (L : List (Char × Char)) (c₀ c₁ : Char → Int),
    pass1P c₁ (mkT L (assignYX c₀ L)) =
      some (fun x => c₁ x - greensCount L x) := by
  intro L
  induction L with
  | nil =>
    intro c₀ c₁
    show some c₁ = some _
    congr 1
    funext x
    simp [greensCount]
  | cons q L' ih =>
    intro c₀ c₁
    obtain ⟨sc, gc⟩ := q
    by_cases hg : sc = gc
    · rw [show assignYX c₀ ((sc, gc) :: L') = 'G' :: assignYX c₀ L' from by
        simp [assignYX, hg]]
      show (if ('G' : Char) = 'G' then
          if sc ≠ gc then none
          else pass1P (decr c₁ gc) (mkT L' (assignYX c₀ L'))
        else pass1P c₁ (mkT L' (assignYX c₀ L'))) = _
      rw [if_pos rfl, if_neg (by simp [hg]), ih c₀ (decr c₁ gc)]
      congr 1
      funext x
      unfold greensCount decr
      rw [List.filter_cons]
      by_cases hx : x = gc
      · subst hx
        have h1 : decide ((sc, x).1 = x ∧ (sc, x).1 = (sc, x).2) = true := by
          simp [hg]
        rw [if_pos rfl, if_pos h1, List.length_cons]
        push_cast
        ring
      · have hcond : ¬(sc = x ∧ sc = gc) := fun hsx => hx (hsx.1 ▸ hsx.2)
        have h1 : ¬(decide ((sc, gc).1 = x ∧ (sc, gc).1 = (sc, gc).2) = true) := by
          simpa using hcond
        rw [if_neg hx, if_neg h1]
    · by_cases hy : 0 < c₀ gc
      · rw [show assignYX c₀ ((sc, gc) :: L') =
            'Y' :: assignYX (decr c₀ gc) L' from by simp [assignYX, hg, hy]]
        show (if ('Y' : Char) = 'G' then _
          else pass1P c₁ (mkT L' (assignYX (decr c₀ gc) L'))) = _
        rw [if_neg (by decide), ih (decr c₀ gc) c₁]
        congr 1
        funext x
        have hcond : ¬(sc = x ∧ sc = gc) := fun hsx => hg hsx.2
        unfold greensCount
        rw [List.filter_cons, if_neg (by simpa using hcond)]
      · rw [show assignYX c₀ ((sc, gc) :: L') =
            'X' :: assignYX c₀ L' from by simp [assignYX, hg, hy]]
        show (if ('X' : Char) = 'G' then _
          else pass1P c₁ (mkT L' (assignYX c₀ L'))) = _
        rw [if_neg (by decide), ih c₀ c₁]
        congr 1
        funext x
        have hcond : ¬(sc = x ∧ sc = gc) := fun hsx => hg hsx.2
        unfold greensCount
        rw [List.filter_cons, if_neg (by simpa using hcond)]

theorem pass2P_feedback : ∀ (L : List (Char × Char)) (c : Char → Int),
    pass2P c (mkT L (assignYX c L)) = true := by
  intro L
  induction L with
  | nil => intro c; rfl
  | cons q L' ih =>
    intro c
    obtain ⟨sc, gc⟩ := q
    by_cases hg : sc = gc
    · rw [show assignYX c ((sc, gc) :: L') = 'G' :: assignYX c L' from by
        simp [assignYX, hg]]
      show (if ('G' : Char) = 'G' then pass2P c (mkT L' (assignYX c L'))
        else _) = true
      rw [if_pos rfl]
      exact ih c
    · by_cases hy : 0 < c gc
      · rw [show assignYX c ((sc, gc) :: L') =
            'Y' :: assignYX (decr c gc) L' from by simp [assignYX, hg, hy]]
        show (if ('Y' : Char) = 'G' then _
          else if ('Y' : Char) = 'Y' then
            if sc = gc ∨ c gc = 0 then false
            else pass2P (decr c gc) (mkT L' (assignYX (decr c gc) L'))
          else _) = true
        rw [if_neg (by decide), if_pos rfl,
          if_neg (by push_neg; exact ⟨hg, by omega⟩)]
        exact ih (decr c gc)
      · rw [show assignYX c ((sc, gc) :: L') = 'X' :: assignYX c L' from by
          simp [assignYX, hg, hy]]
        show (if ('X' : Char) = 'G' then _
          else if ('X' : Char) = 'Y' then _
          else if ('X' : Char) = 'X' then
            if 0 < c gc then false else pass2P c (mkT L' (assignYX c L'))
          else _) = true
        rw [if_neg (by decide), if_neg (by decide), if_pos rfl, if_neg hy]
        exact ih c

theorem initCounts_sub_greens {secret guess : List Char}
    (h : secret.length = guess.length) (x : Char) :
    initCounts secret x - greensCount (secret.zip guess) x =
      nonGreenCount (secret.zip guess) x := by
  have hmap : (secret.zip guess).map Prod.fst = secret :=
    List.map_fst_zip secret guess (le_of_eq h)
  have hlen : (secret.filter (fun c => decide (c = x))).length =
      ((secret.zip guess).filter (fun q => decide (q.1 = x))).length := by
    conv_lhs => rw [← hmap]
    rw [List.map_filter]
    · rw [List.length_map]
      rfl
  have hsplit := length_filter_and_split (secret.zip guess)
    (fun q => q.1 = x) (fun q => q.1 = q.2)
  unfold initCounts greensCount nonGreenCount
  rw [hlen, hsplit]
  push_cast
  ring

theorem assignYX_length : ∀ (L : List (Char × Char)) (c : Char → Int),
    (assignYX c L).length = L.length := by
  intro L
  induction L with
  | nil => intro c; rfl
  | cons q L' ih =>
    intro c
    by_cases hg : q.1 = q.2
    · simp [assignYX, hg, ih]
    · by_cases hy : 0 < c q.2 <;> simp [assignYX, hg, hy, ih]

theorem assignYX_chars : ∀ (L : List (Char × Char)) (c : Char → Int),
    ∀ ch ∈ assignYX c L, ch = 'G' ∨ ch = 'Y' ∨ ch = 'X' := by
  intro L
  induction L with
  | nil => intro c ch hch; exact absurd hch (by simp [assignYX])
  | cons q L' ih =>
    intro c ch hch
    by_cases hg : q.1 = q.2
    · rw [show assignYX c (q :: L') = 'G' :: assignYX c L' from by
        simp [assignYX, hg]] at hch
      rcases List.mem_cons.mp hch with h | h
      · exact Or.inl h
      · exact ih c ch h
    · by_cases hy : 0 < c q.2
      · rw [show assignYX c (q :: L') = 'Y' :: assignYX (decr c q.2) L'
          from by simp [assignYX, hg, hy]] at hch
        rcases List.mem_cons.mp hch with h | h
        · exact Or.inr (Or.inl h)
        · exact ih (decr c q.2) ch h
      · rw [show assignYX c (q :: L') = 'X' :: assignYX c L' from by
          simp [assignYX, hg, hy]] at hch
        rcases List.mem_cons.mp hch with h | h
        · exact Or.inr (Or.inr h)
        · exact ih c ch h

theorem specConsistent_feedback {guess secret : List Char}
    (h : secret.length = guess.length) :
    specConsistent guess (feedback guess secret) secret = true := by
  unfold specConsistent feedback
  rw [zip3CW_zip_eq_mkT,
    pass1P_feedback (secret.zip guess) (nonGreenCount (secret.zip guess))
      (initCounts secret)]
  show pass2P (fun x => initCounts secret x -
      greensCount (secret.zip guess) x)
    (mkT (secret.zip guess)
      (assignYX (nonGreenCount (secret.zip guess)) (secret.zip guess))) = true
  rw [show (fun x => initCounts secret x - greensCount (secret.zip guess) x) =
      nonGreenCount (secret.zip guess) from
    funext (initCounts_sub_greens h)]
  exact pass2P_feedback (secret.zip guess) (nonGreenCount (secret.zip guess))

/-- C2: filtering a pool of 5-letter words that contains a secret word
with the exact feedback that standard Wordle scoring produces for any
length-5 guess against that secret never removes the secret from the
pool. -/
theorem c2_secret_survives_its_own_feedback (pool : List Word)
    (g s : List Char) (hs : s ∈ pool) (hg : g.length = 5)
    (hw : ∀ w ∈ pool, w.length = 5) :
    ∃ r, filterOp g (feedback g s) pool = .ok r ∧ s ∈ r := by
  have hsl : s.length = 5 := hw s hs
  have hfl : (feedback g s).length = 5 := by
    unfold feedback
    rw [assignYX_length, List.length_zip, hsl, hg]
    simp
  refine ⟨pool.filter (specConsistent g (feedback g s)),
    filterOp_bridge hg hfl (fun c hc => assignYX_chars _ _ c hc) hw, ?_⟩
  rw [List.mem_filter]
  exact ⟨hs, specConsistent_feedback (by rw [hsl, hg])⟩

theorem c2_secret_survives_its_own_feedback_witness :
    ((['s', 'l', 'a', 't', 'e'] : Word) ∈
        [['s', 'l', 'a', 't', 'e'], ['c', 'r', 'a', 'n', 'e']] ∧
      (['c', 'r', 'a', 'n', 'e'] : List Char).length = 5 ∧
      (∀ w ∈ [['s', 'l', 'a', 't', 'e'], ['c', 'r', 'a', 'n', 'e']],
        (w : Word).length = 5)) ∧
    ∃ r, filterOp ['c', 'r', 'a', 'n', 'e']
        (feedback ['c', 'r', 'a', 'n', 'e'] ['s', 'l', 'a', 't', 'e'])
        [['s', 'l', 'a', 't', 'e'], ['c', 'r', 'a', 'n', 'e']] = .ok r ∧
      ['s', 'l', 'a', 't', 'e'] ∈ r :=
  ⟨by decide,
    c2_secret_survives_its_own_feedback
      [['s', 'l', 'a', 't', 'e'], ['c', 'r', 'a', 'n', 'e']]
      ['c', 'r', 'a', 'n', 'e'] ['s', 'l', 'a', 't', 'e']
      (by decide) (by decide) (by decide)⟩

theorem fst_le_of_mem_enumFrom {α : Type} : ∀ (l : List α) (n : Nat)
    (q : Nat × α), q ∈ List.enumFrom n l → n ≤ q.1 := by
  intro l
  induction l with
  | nil => intro n q hq; exact absurd hq (by simp)
  | cons a l ih =>
    intro n q hq
    have hq' : q = (n, a) ∨ q ∈ List.enumFrom (n + 1) l := by
      simpa using hq
    rcases hq' with h | h
    · subst h; simp
    · exact Nat.le_of_succ_le (ih (n + 1) q h)

theorem orderedInsert_map_snd (score : Word → Nat) (i : Nat) (x : Word) :
    ∀ (l : List (Nat × Word)), (∀ q ∈ l, i < q.1) →
    (List.orderedInsert (specKey score) (i, x) l).map Prod.snd =
      List.orderedInsert (scoreGE score) x (l.map Prod.snd) := by
  intro l
  induction l with
  | nil => intro _; rfl
  | cons q l ih =>
    intro h
    obtain ⟨j, y⟩ := q
    have hij : i < j := h (j, y) (by simp)
    have hiff : specKey score (i, x) (j, y) ↔ scoreGE score x y := by
      unfold specKey scoreGE
      constructor
      · rintro (hlt | heq)
        · exact le_of_lt hlt
        · exact le_of_eq heq.1.symm
      · intro hle
        rcases lt_or_eq_of_le hle with hlt | heq
        · exact Or.inl hlt
        · exact Or.inr ⟨heq.symm, le_of_lt hij⟩
    simp only [List.orderedInsert, List.map_cons]
    by_cases hc : scoreGE score x y
    · rw [if_pos (hiff.mpr hc), if_pos hc, List.map_cons, List.map_cons]
    · rw [if_neg (fun hk => hc (hiff.mp hk)), if_neg hc, List.map_cons,
        ih (fun q hq => h q (List.mem_cons_of_mem _ hq))]

theorem insertionSort_enumFrom_map_snd (score : Word → Nat) :
    ∀ (pool : List Word) (n : Nat),
    (List.insertionSort (specKey score) (List.enumFrom n pool)).map
        Prod.snd =
      List.insertionSort (scoreGE score) pool := by
  intro pool
  induction pool with
  | nil => intro n; rfl
  | cons x pool ih =>
    intro n
    show (List.insertionSort (specKey score)
      ((n, x) :: List.enumFrom (n + 1) pool)).map Prod.snd = _
    rw [List.insertionSort]
    rw [orderedInsert_map_snd score n x _ ?_]
    · rw [ih (n + 1)]
      rfl
    · intro q hq
      have hq' : q ∈ List.enumFrom (n + 1) pool :=
        (List.mem_insertionSort (specKey score)).mp hq
      have := fst_le_of_mem_enumFrom pool (n + 1) q hq'
      omega

/-- C5: for a non-empty pool, `recommend` ranks candidates by the
coverage score (sum over a word's distinct letters of the number of pool
words containing that letter) in descending order with ties broken by
original pool order: its stable descending sort coincides with sorting
the index-tagged pool by the strict key (score descending, original
index ascending). -/
theorem c5_recommend_ranking (pool : List Word) (topK : Nat)
    (hne : pool ≠ []) :
    recommendList pool topK = (specRanked pool).take topK := by
  unfold recommendList specRanked rankedList
  rw [show pool.enum = List.enumFrom 0 pool from rfl,
    insertionSort_enumFrom_map_snd (wordScore pool) pool 0]

theorem c5_recommend_ranking_witness :
    ([['s', 'l', 'a', 't', 'e'], ['c', 'r', 'a', 'n', 'e'],
        ['t', 'r', 'a', 'c', 'e']] : List Word) ≠ [] ∧
    recommendList [['s', 'l', 'a', 't', 'e'], ['c', 'r', 'a', 'n', 'e'],
        ['t', 'r', 'a', 'c', 'e']] 10 =
      (specRanked [['s', 'l', 'a', 't', 'e'], ['c', 'r', 'a', 'n', 'e'],
        ['t', 'r', 'a', 'c', 'e']]).take 10 :=
  ⟨by decide,
    c5_recommend_ranking [['s', 'l', 'a', 't', 'e'], ['c', 'r', 'a', 'n', 'e'],
      ['t', 'r', 'a', 'c', 'e']] 10 (by decide)⟩

/-- C9: the loaded word list is never modified by any sequence of
operations after `initialize`, and `recommend` (with its score
computation) and `size` leave the whole solver state — candidate pool
included — unchanged; `filter` is the only mutating operation. -/
theorem c9_wordlist_immutable_and_pure_reads
    (wordList : List Word) (ops : List SolverOp) :
    (runOps (initState wordList) ops).words = wordList ∧
    (∀ s : SolverState, (recommendRun s).1 = s ∧ (sizeRun s).1 = s) :=
  ⟨runOps_words ops (initState wordList), fun _ => ⟨rfl, rfl⟩⟩

end WSolver
